import Mathlib

set_option maxRecDepth 100000
set_option maxHeartbeats 2000000

/-!
Verification development for `electrumx/server/chain_state.py` (class
`ChainState`): an LRU-cached, invalidation-aware facade over a block
processor, mempool and daemon.

The embedding models:
  * the `pylru.lrucache(256)` history cache as an association list ordered
    most-recently-used first, with the capacity/eviction/refresh behaviour
    of `pylru` (lookup via `__getitem__` refreshes recency, `__contains__`
    does not, `__setitem__` inserts at the front and evicts the tail when
    the capacity is exceeded);
  * `get_history` split at its single `await` point into a synchronous
    begin step (cache probe, job dispatch on a miss) and a finish step
    (job result installed with `hc[hashX] = ...`, then `return hc[hashX]`);
  * `_notify` as the deletion loop `for hashX in set(hc).intersection
    (touched): del hc[hashX]`;
  * a ghost sequence counter (incremented per delivered notification) and a
    ghost pending set recording the sequence observed when each in-flight
    computation began, so that the spec's staleness conditions can be
    stated; the Python code keeps no such bookkeeping, which is exactly
    what the race claims are about.
-/

abbrev Key := Nat

abbrev Record := Nat

/-- A cached history value: an opaque ordered sequence of records. -/
abbrev Value := List Record

/-- A cache entry together with the ghost sequence number that was current
when the computation producing it began (`computed_at_sequence`). -/
structure Entry where
  value : Value
  computedAt : Nat
deriving DecidableEq

abbrev Cache := List (Key × Entry)

/-- Capacity of the history cache: `pylru.lrucache(256)` in `__init__`. -/
def lruCapacity : Nat := 256

/-- Modelled from the spec and pylru semantics: `key in cache`
(`__contains__`) — a pure membership probe that does not refresh recency. -/
def lruContains (c : Cache) (k : Key) : Bool :=
  c.any (fun p => p.1 == k)

/-- Value lookup without recency update (the read half of `__getitem__`). -/
def lruFind (c : Cache) (k : Key) : Option Entry :=
  (c.find? (fun p => p.1 == k)).map Prod.snd

/-- Modelled from the spec and pylru semantics: `del cache[key]` removes the
entry for `key`, leaving the others in order. -/
def lruDel (c : Cache) (k : Key) : Cache :=
  c.filter (fun p => p.1 != k)

/-- Modelled from the spec and pylru semantics: the recency effect of
`cache[key]` (`__getitem__`) — the accessed entry moves to the front
(most-recently-used position). -/
def lruTouch (c : Cache) (k : Key) : Cache :=
  match c.find? (fun p => p.1 == k) with
  | some p => p :: lruDel c k
  | none => c

/-- Modelled from the spec and pylru semantics: `cache[key] = entry`
(`__setitem__`) — an existing key is updated and moved to the front; a new
key is inserted at the front and, when the capacity would be exceeded, the
least-recently-used entry (the tail) is evicted. -/
def lruSet (c : Cache) (k : Key) (e : Entry) : Cache :=
  if lruContains c k then (k, e) :: lruDel c k
  else ((k, e) :: c).take lruCapacity

/-- The per-record size estimate used by the history DoS limit: the code
divides `max_send` by 97 (`limit = self._env.max_send // 97`). -/
def perRecordEstimate : Nat := 97

/-- The true average encoded record size named by the comment in
`get_history` ("Each element of history is about 99 bytes"). -/
def trueRecordBytes : Nat := 99

/-- Modelled from the spec: `scan_history(key, limit) -> ordered sequence of
records` — the store (`self._bp.get_history`, not under `src/`) returns its
records for the key, truncated to at most `limit`. -/
def scanHistory (store : Key → Value) (k : Key) (limit : Nat) : Value :=
  (store k).take limit

/-- Modelled from the spec: `scan_utxos(key, limit|none)` — with no limit the
store (`self._bp.get_utxos(hashX, limit=None)`, not under `src/`) returns
every record for the key. -/
def scanUtxos (store : Key → Value) (k : Key) (limit : Option Nat) : Value :=
  match limit with
  | none => store k
  | some n => (store k).take n

/-- The facade state: the history cache, the ghost notification sequence
counter, the ghost pending-computation list (key, sequence at start), a
ghost count of dispatched jobs, the block-processor-stopped flag set by
`shutdown`, and the immutable collaborators (store contents, `max_send`). -/
structure ChainState where
  cache : Cache
  pending : List (Key × Nat)
  seq : Nat
  jobs : Nat
  bpStopped : Bool
  historyStore : Key → Value
  utxoStore : Key → Value
  maxSend : Nat

/-- The blocking job built inside `get_history`:
`list(self._bp.get_history(hashX, limit=self._env.max_send // 97))`. -/
def historyJob (s : ChainState) (k : Key) : Value :=
  scanHistory s.historyStore k (s.maxSend / perRecordEstimate)

/-- The synchronous part of `get_history`, up to the `await`: on a hit
(`hashX in hc`) the cached value is returned at once via `return hc[hashX]`
(which refreshes recency) and no job is dispatched; on a miss a job is
dispatched and the call suspends (result `none`), recording the current
ghost sequence for the pending computation. -/
def getHistoryBegin (s : ChainState) (k : Key) : ChainState × Option Value :=
  if lruContains s.cache k then
    ({ s with cache := lruTouch s.cache k }, (lruFind s.cache k).map Entry.value)
  else
    ({ s with pending := s.pending ++ [(k, s.seq)], jobs := s.jobs + 1 }, none)

/-- The resumption of a suspended `get_history` call whose job (begun at
ghost sequence `s0`) has completed: `hc[hashX] = await ...` installs the
result unconditionally, then `return hc[hashX]` reads it back (refreshing
recency). There is no staleness check before the installation. -/
def getHistoryFinish (s : ChainState) (k : Key) (s0 : Nat) : ChainState × Value :=
  let v := historyJob s k
  let c1 := lruSet s.cache k ⟨v, s0⟩
  ({ s with cache := lruTouch c1 k,
            pending := s.pending.eraseP (fun q => q.1 == k) },
   ((lruFind c1 k).map Entry.value).getD v)

/-- The deletion loop of `_notify`:
`for hashX in set(hc).intersection(touched): del hc[hashX]`. -/
def notifyCache (c : Cache) (touched : List Key) : Cache :=
  ((c.map Prod.fst).filter (fun k => touched.contains k)).foldl lruDel c

/-- `_notify(height, touched)` as a state transition; the ghost sequence
counter advances with each delivered notification. -/
def notifyOp (s : ChainState) (touched : List Key) : ChainState :=
  { s with cache := notifyCache s.cache touched, seq := s.seq + 1 }

/-- `get_utxos`: dispatches `list(self._bp.get_utxos(hashX, limit=None))` to
a thread and returns its result; the history cache is neither read nor
written. -/
def getUtxosOp (s : ChainState) (k : Key) : ChainState × Value :=
  (s, scanUtxos s.utxoStore k none)

/-- `processing_new_block`:
`self._daemon.cached_height() > self.db_height()`. -/
def processingNewBlock (daemonHeight dbHeight : Int) : Bool :=
  daemonHeight > dbHeight

/-- `raw_header(height)`: `header, n = self._bp.read_headers(height, 1)`;
raises `IndexError` when `n != 1`, otherwise returns the header bytes
unmodified. -/
def rawHeader (readHeaders : Nat → Nat → Value × Nat) (height : Nat) :
    Except String Value :=
  let hn := readHeaders height 1
  if hn.2 != 1 then .error "height out of range" else .ok hn.1

/-- Whether an `Except` result is the error case. -/
def exceptIsError (x : Except String Value) : Bool :=
  match x with
  | .error _ => true
  | .ok _ => false

/-- `shutdown`: awaits `self._bp.shutdown()`; nothing else in the facade
changes, and no flag consulted by any query path is set. -/
def shutdownOp (s : ChainState) : ChainState :=
  { s with bpStopped := true }

/-- Interleaving events: a `get_history` call beginning, a pending
`get_history` job completing, a notification delivery, a `get_utxos` call,
and shutdown. -/
inductive Event where
  | get (k : Key)
  | fin (k : Key)
  | notify (touched : List Key)
  | utxos (k : Key)
  | shut

/-- One interleaving step of the facade. -/
def step (s : ChainState) (e : Event) : ChainState :=
  match e with
  | .get k => (getHistoryBegin s k).1
  | .fin k =>
    match s.pending.find? (fun q => q.1 == k) with
    | some q => (getHistoryFinish s k q.2).1
    | none => s
  | .notify t => notifyOp s t
  | .utxos k => (getUtxosOp s k).1
  | .shut => shutdownOp s

/-- Run a list of events from a state. -/
def run (s : ChainState) (tr : List Event) : ChainState :=
  tr.foldl step s

/-- The facade at start: empty cache, nothing pending, sequence 0. -/
def initState (hist utxo : Key → Value) (ms : Nat) : ChainState :=
  { cache := [], pending := [], seq := 0, jobs := 0, bpStopped := false,
    historyStore := hist, utxoStore := utxo, maxSend := ms }

/-- A `read_headers` collaborator used by witnesses: height 0 is indexed
(count 1), all other heights are out of range (count 0). -/
def rhW : Nat → Nat → Value × Nat :=
  fun h _ => ([42], if h == 0 then 1 else 0)

/-- History store used by concrete scenarios: every key has 20 records. -/
def histW : Key → Value := fun _ => List.range 20

/-- UTXO store used by concrete scenarios. -/
def utxoW : Key → Value := fun k => [k, k + 1]

/-- Concrete facade state with `max_send = 970` (record limit 970/97 = 10). -/
def stateW : ChainState := initState histW utxoW 970

/-- The state after one completed `get_history(0)` call on `stateW`. -/
def cachedStateW : ChainState := run stateW [.get 0, .fin 0]

/-- A full cache of 256 distinct keys for the eviction scenario. -/
def fullCache : Cache := (List.range 256).map (fun i => (i, ⟨[i], 0⟩))

/-- Events that compute and finish histories for keys `1..n` in order. -/
def churn : Nat → List Event
  | 0 => []
  | n + 1 => churn n ++ [.get (n + 1), .fin (n + 1)]

/-- The C2 eviction trace: cache key 0, then touch 256 fresh keys. -/
def evictTrace : List Event := [.get 0, .fin 0] ++ churn 256

/-- The C1 race trace: a miss for key 0 dispatches a job at sequence 0, an
invalidation touching key 0 is delivered (sequence becomes 1), then the
job's result lands. -/
def raceTrace : List Event := [.get 0, .notify [0], .fin 0]

/-- The C8 trace: key 0 is cached, then shutdown is initiated. -/
def shutdownTrace : List Event := [.get 0, .fin 0, .shut]

/-- The entry every completed computation in the churn scenario installs:
`histW` is constant, `max_send / 97 = 10`, and the ghost sequence stays 0. -/
def e0W : Entry := ⟨(List.range 20).take 10, 0⟩

/-- The cache contents after the churn scenario has completed keys `n..1`
on top of the initial entry for key 0 (most-recently-used first). -/
def churnCache : Nat → Cache
  | 0 => [(0, e0W)]
  | n + 1 => ((n + 1, e0W) :: churnCache n).take lruCapacity

theorem foldl_lruDel_eq_filter (ks : List Key) (c : Cache) :
    ks.foldl lruDel c = c.filter (fun p => !(ks.contains p.1)) := by
  induction ks generalizing c with
  | nil => simp
  | cons k ks ih =>
    rw [List.foldl_cons, ih]
    unfold lruDel
    rw [List.filter_filter]
    refine List.filter_congr ?_
    intro p _
    by_cases h : p.1 = k <;> simp [h]

theorem notifyCache_eq_filter (c : Cache) (t : List Key) :
    notifyCache c t = c.filter (fun p => !(t.contains p.1)) := by
  unfold notifyCache
  rw [foldl_lruDel_eq_filter]
  refine List.filter_congr ?_
  intro p hp
  have hk : p.1 ∈ c.map Prod.fst := List.mem_map_of_mem Prod.fst hp
  congr 1
  rw [Bool.eq_iff_iff]
  simp only [List.elem_iff, List.mem_filter]
  tauto

/-- C5: `_notify` removes exactly the cached entries whose key is in the
touched set, and every entry whose key is untouched survives with the same
key and value (the cache is pointwise filtered). -/
theorem notify_removes_exactly_touched (s : ChainState) (t : List Key) :
    (notifyOp s t).cache = s.cache.filter (fun p => !(t.contains p.1))
    ∧ (∀ k e, (k, e) ∈ (notifyOp s t).cache ↔ (k, e) ∈ s.cache ∧ k ∉ t) := by
  have hfil : (notifyOp s t).cache = s.cache.filter (fun p => !(t.contains p.1)) :=
    notifyCache_eq_filter s.cache t
  refine ⟨hfil, ?_⟩
  intro k e
  rw [hfil, List.mem_filter]
  simp [List.elem_iff]

/-- C10: the invalidation handler is idempotent on the cache and never adds
an entry: applying `_notify` twice with the same touched set leaves the
cache exactly as one application does, and the cache size never grows. -/
theorem notify_idempotent_size_nonincreasing (s : ChainState) (t : List Key) :
    (notifyOp (notifyOp s t) t).cache = (notifyOp s t).cache
    ∧ (notifyOp s t).cache.length ≤ s.cache.length := by
  constructor
  · show notifyCache (notifyOp s t).cache t = (notifyOp s t).cache
    rw [notifyCache_eq_filter,
       show (notifyOp s t).cache = notifyCache s.cache t from rfl,
       notifyCache_eq_filter, List.filter_filter]
    refine List.filter_congr ?_
    intro p _
    cases t.contains p.1 <;> rfl
  · rw [show (notifyOp s t).cache = notifyCache s.cache t from rfl,
       notifyCache_eq_filter]
    exact s.cache.length_filter_le _

/-- C9: `get_utxos` leaves the whole facade state (in particular the history
cache) unchanged, its result is the unbounded store scan (`limit=None`),
and the result is independent of the cache contents (never served from it). -/
theorem get_utxos_cache_free (s : ChainState) (k : Key) :
    (getUtxosOp s k).1 = s
    ∧ (getUtxosOp s k).1.cache = s.cache
    ∧ (getUtxosOp s k).2 = scanUtxos s.utxoStore k none
    ∧ (getUtxosOp s k).2 = s.utxoStore k
    ∧ (∀ c : Cache, (getUtxosOp { s with cache := c } k).2 = (getUtxosOp s k).2) :=
  ⟨rfl, rfl, rfl, rfl, fun _ => rfl⟩

/-- C7: `raw_header` fails with the out-of-range error exactly when the
store's `read_headers(height, 1)` reports a count different from 1;
otherwise it returns the store's header bytes unchanged. -/
theorem raw_header_out_of_range (rh : Nat → Nat → Value × Nat) (h : Nat) :
    (exceptIsError (rawHeader rh h) = true ↔ (rh h 1).2 ≠ 1)
    ∧ ((rh h 1).2 = 1 → rawHeader rh h = .ok (rh h 1).1) := by
  unfold rawHeader exceptIsError
  by_cases hn : (rh h 1).2 = 1 <;> simp [hn]

/-- Witness for C7: with the store `rhW` (only height 0 indexed),
`raw_header 0` returns the header and `raw_header 1` errors. -/
theorem raw_header_out_of_range_witness :
    rawHeader rhW 0 = .ok [42] ∧ exceptIsError (rawHeader rhW 1) = true :=
  ⟨(raw_header_out_of_range rhW 0).2 (by decide),
   (raw_header_out_of_range rhW 1).1.mpr (by decide)⟩

/-- C6: `processing_new_block` is true exactly when the daemon height is
strictly greater than the indexed height; equality gives false, and an
indexed height above the daemon height (reorg) also gives false rather
than an error. -/
theorem processingNewBlock_gt (d b : Int) :
    (processingNewBlock d b = true ↔ d > b)
    ∧ (d = b → processingNewBlock d b = false)
    ∧ (b > d → processingNewBlock d b = false) := by
  refine ⟨?_, ?_, ?_⟩ <;>
    simp only [processingNewBlock, decide_eq_true_eq, decide_eq_false_iff_not] <;>
    omega

/-- Witness for C6 at concrete heights 2 > 1, 1 = 1, 0 < 1. -/
theorem processingNewBlock_gt_witness :
    processingNewBlock 2 1 = true ∧ processingNewBlock 1 1 = false
    ∧ processingNewBlock 0 1 = false :=
  ⟨(processingNewBlock_gt 2 1).1.mpr (by decide),
   (processingNewBlock_gt 1 1).2.1 rfl,
   (processingNewBlock_gt 0 1).2.2 (by decide)⟩

theorem find?_key_beq {c : Cache} {k : Key} {p : Key × Entry}
    (h : c.find? (fun q => q.1 == k) = some p) : (p.1 == k) = true :=
  (List.find?_eq_some.mp h).1

theorem lruContains_of_find?_eq_some {c : Cache} {k : Key} {p : Key × Entry}
    (h : c.find? (fun q => q.1 == k) = some p) : lruContains c k = true := by
  unfold lruContains
  exact List.any_eq_true.mpr ⟨p, List.mem_of_find?_eq_some h, find?_key_beq h⟩

theorem lruContains_of_lruFind {c : Cache} {k : Key} {e : Entry}
    (h : lruFind c k = some e) : lruContains c k = true := by
  unfold lruFind at h
  rcases Option.map_eq_some'.mp h with ⟨p, hp, _⟩
  exact lruContains_of_find?_eq_some hp

theorem lruDel_length_lt (c : Cache) (k : Key) (h : lruContains c k = true) :
    (lruDel c k).length < c.length := by
  unfold lruContains at h
  rcases List.any_eq_true.mp h with ⟨p, hp, hpk⟩
  simp only [beq_iff_eq] at hpk
  unfold lruDel
  refine List.length_filter_lt_length_iff_exists.mpr ⟨p, hp, ?_⟩
  simp [hpk]

theorem lruTouch_length_le (c : Cache) (k : Key) :
    (lruTouch c k).length ≤ c.length := by
  unfold lruTouch
  cases hf : c.find? (fun p => p.1 == k) with
  | none => exact Nat.le_refl _
  | some p =>
    have hlt := lruDel_length_lt c k (lruContains_of_find?_eq_some hf)
    simp only [List.length_cons]
    omega

theorem lruSet_length_le (c : Cache) (k : Key) (e : Entry)
    (h : c.length ≤ lruCapacity) : (lruSet c k e).length ≤ lruCapacity := by
  unfold lruSet
  by_cases hc : lruContains c k
  · have hlt := lruDel_length_lt c k hc
    rw [if_pos hc]
    simp only [List.length_cons]
    omega
  · rw [if_neg hc]
    rw [List.length_take]
    exact Nat.min_le_left _ _

theorem lruFind_lruSet_self (c : Cache) (k : Key) (e : Entry) :
    lruFind (lruSet c k e) k = some e := by
  unfold lruSet lruFind
  by_cases hc : lruContains c k
  · rw [if_pos hc]
    simp
  · rw [if_neg hc]
    rw [show lruCapacity = 255 + 1 from rfl, List.take_succ_cons]
    simp

theorem lruFind_lruTouch_self (c : Cache) (k : Key) :
    lruFind (lruTouch c k) k = lruFind c k := by
  cases hf : c.find? (fun p => p.1 == k) with
  | none =>
    unfold lruTouch
    rw [hf]
  | some p =>
    have hp : ((fun q : Key × Entry => q.1 == k) p) = true := find?_key_beq hf
    have ht : lruTouch c k = p :: lruDel c k := by
      unfold lruTouch
      rw [hf]
    rw [ht]
    unfold lruFind
    rw [@List.find?_cons_of_pos (Key × Entry) (fun q => q.1 == k) p (lruDel c k) hp, hf]

theorem getHistoryFinish_ret (s : ChainState) (k : Key) (s0 : Nat) :
    (getHistoryFinish s k s0).2 = historyJob s k := by
  show ((lruFind (lruSet s.cache k ⟨historyJob s k, s0⟩) k).map
          Entry.value).getD (historyJob s k) = historyJob s k
  rw [lruFind_lruSet_self]
  rfl

/-- C4: the history job returns at most `max_send / 97` records, exactly
that many when the store holds more, the result of a completed
`get_history` computation is exactly the job's value, and the per-record
estimate 97 is deliberately below the true average record size of about
99 bytes. -/
theorem history_response_limit (s : ChainState) (k : Key) (s0 : Nat) :
    (getHistoryFinish s k s0).2 = historyJob s k
    ∧ (historyJob s k).length ≤ s.maxSend / perRecordEstimate
    ∧ ((s.historyStore k).length > s.maxSend / perRecordEstimate →
        (historyJob s k).length = s.maxSend / perRecordEstimate)
    ∧ perRecordEstimate < trueRecordBytes := by
  refine ⟨getHistoryFinish_ret s k s0, ?_, ?_, by decide⟩
  · unfold historyJob scanHistory
    rw [List.length_take]
    exact Nat.min_le_left _ _
  · intro hmore
    unfold historyJob scanHistory
    rw [List.length_take]
    omega

/-- Witness for C4: with 20 records in the store and `max_send = 970`, the
returned history has exactly 970 / 97 = 10 records. -/
theorem history_response_limit_witness :
    (getHistoryFinish stateW 0 0).2 = historyJob stateW 0
    ∧ (historyJob stateW 0).length = 10 :=
  ⟨(history_response_limit stateW 0 0).1,
   (history_response_limit stateW 0 0).2.2.1 (by decide)⟩

/-- C2 amended: while a key stays cached (not yet evicted by capacity
pressure and never invalidated), a repeated `get_history` call returns the
cached value and dispatches no job; and a completed computation leaves its
key cached, so the immediately following call is such a hit. The original
claim's "every subsequent call" fails only when 256 fresh keys evict the
entry (see the counterexample). -/
theorem cache_hit_no_job (s : ChainState) (k : Key) (e : Entry) (s0 : Nat)
    (h : lruFind s.cache k = some e) :
    ((getHistoryBegin s k).2 = some e.value
      ∧ (getHistoryBegin s k).1.jobs = s.jobs)
    ∧ lruFind (getHistoryFinish s k s0).1.cache k = some ⟨historyJob s k, s0⟩ := by
  have hc : lruContains s.cache k = true := lruContains_of_lruFind h
  refine ⟨⟨?_, ?_⟩, ?_⟩
  · unfold getHistoryBegin
    rw [if_pos hc, h]
    rfl
  · unfold getHistoryBegin
    rw [if_pos hc]
  · show lruFind (lruTouch (lruSet s.cache k ⟨historyJob s k, s0⟩) k) k = _
    rw [lruFind_lruTouch_self, lruFind_lruSet_self]

/-- Witness for C2's amended statement: with key 0 cached in `cachedStateW`,
a repeated `get_history(0)` returns the cached value and no job runs. -/
theorem cache_hit_no_job_witness :
    ((getHistoryBegin cachedStateW 0).2 = some (historyJob stateW 0)
      ∧ (getHistoryBegin cachedStateW 0).1.jobs = cachedStateW.jobs)
    ∧ lruFind (getHistoryFinish cachedStateW 0 0).1.cache 0
        = some ⟨historyJob cachedStateW 0, 0⟩ :=
  cache_hit_no_job cachedStateW 0 ⟨historyJob stateW 0, 0⟩ 0 (by decide)


theorem lruDel_of_not_contains {c : Cache} {k : Key}
    (h : lruContains c k = false) : lruDel c k = c := by
  unfold lruContains at h
  rw [List.any_eq_false] at h
  unfold lruDel
  refine List.filter_eq_self.mpr ?_
  intro p hp
  have hk := h p hp
  simp only [beq_iff_eq] at hk
  simp [hk]

theorem lruContains_take_false {c : Cache} {k : Key} (n : Nat)
    (h : lruContains c k = false) : lruContains (c.take n) k = false := by
  unfold lruContains at h ⊢
  rw [List.any_eq_false] at h ⊢
  exact fun p hp => h p (List.mem_of_mem_take hp)

theorem lruTouch_cons_self (k : Key) (e : Entry) (c : Cache) :
    lruTouch ((k, e) :: c) k = (k, e) :: lruDel c k := by
  have hf : ((k, e) :: c).find? (fun p => p.1 == k) = some (k, e) :=
    @List.find?_cons_of_pos _ (fun p => p.1 == k) (k, e) c (by simp)
  unfold lruTouch
  rw [hf]
  unfold lruDel
  rw [List.filter_cons]
  simp

theorem getHistoryBegin_miss (s : ChainState) (k : Key)
    (hc : lruContains s.cache k = false) :
    (getHistoryBegin s k).2 = none
    ∧ (getHistoryBegin s k).1.jobs = s.jobs + 1 := by
  unfold getHistoryBegin
  rw [if_neg (by simp [hc])]
  exact ⟨rfl, rfl⟩

theorem churn_pair (s : ChainState) (k : Key)
    (hp : s.pending = []) (hc : lruContains s.cache k = false) :
    run s [.get k, .fin k]
      = { s with cache := (k, ⟨historyJob s k, s.seq⟩) :: s.cache.take 255,
                 jobs := s.jobs + 1 } := by
  have hnc : ¬ (lruContains s.cache k = true) := by simp [hc]
  show step (step s (.get k)) (.fin k) = _
  have h1 : step s (.get k)
      = { s with pending := [(k, s.seq)], jobs := s.jobs + 1 } := by
    show (getHistoryBegin s k).1 = _
    unfold getHistoryBegin
    rw [if_neg hnc, hp]
    rfl
  rw [h1]
  have hf : List.find? (fun q => q.1 == k) [(k, s.seq)] = some (k, s.seq) :=
    @List.find?_cons_of_pos _ (fun q => q.1 == k) (k, s.seq) [] (by simp)
  have h2 : step { s with pending := [(k, s.seq)], jobs := s.jobs + 1 } (.fin k)
      = (getHistoryFinish
          { s with pending := [(k, s.seq)], jobs := s.jobs + 1 } k s.seq).1 := by
    show (match List.find? (fun q => q.1 == k) [(k, s.seq)] with
          | some q => (getHistoryFinish
              { s with pending := [(k, s.seq)], jobs := s.jobs + 1 } k q.2).1
          | none => { s with pending := [(k, s.seq)], jobs := s.jobs + 1 }) = _
    rw [hf]
  rw [h2]
  have hset : lruSet s.cache k ⟨historyJob s k, s.seq⟩
      = (k, ⟨historyJob s k, s.seq⟩) :: s.cache.take 255 := by
    unfold lruSet
    rw [if_neg hnc, show lruCapacity = 255 + 1 from rfl, List.take_succ_cons]
  show { s with
          cache := lruTouch (lruSet s.cache k ⟨historyJob s k, s.seq⟩) k,
          pending := List.eraseP (fun q => q.1 == k) [(k, s.seq)],
          jobs := s.jobs + 1 } = _
  rw [hset, lruTouch_cons_self, lruDel_of_not_contains (lruContains_take_false 255 hc)]
  have hep : List.eraseP (fun q => q.1 == k) [(k, s.seq)] = s.pending := by
    rw [hp]
    exact List.eraseP_cons_of_pos (by simp)
  rw [hep]

theorem churnCache_keys (n k : Nat)
    (h : lruContains (churnCache n) k = true) : k ≤ n := by
  induction n with
  | zero =>
    unfold churnCache lruContains at h
    rcases List.any_eq_true.mp h with ⟨p, hp, hpk⟩
    rw [List.mem_singleton.mp hp] at hpk
    simp at hpk
    exact Nat.le_of_eq hpk.symm
  | succ n ih =>
    unfold churnCache lruContains at h
    rcases List.any_eq_true.mp h with ⟨p, hp, hpk⟩
    simp only [beq_iff_eq] at hpk
    rcases List.mem_cons.mp (List.mem_of_mem_take hp) with h1 | h2
    · rw [h1] at hpk
      simp at hpk
      exact Nat.le_of_eq hpk.symm
    · have : lruContains (churnCache n) k = true :=
        List.any_eq_true.mpr ⟨p, h2, by simp [hpk]⟩
      exact Nat.le_succ_of_le (ih this)

theorem lruContains_churnCache_succ_false (n : Nat) :
    lruContains (churnCache n) (n + 1) = false := by
  cases h : lruContains (churnCache n) (n + 1) with
  | false => rfl
  | true => exact absurd (churnCache_keys n (n + 1) h) (by omega)

theorem historyJob_churn (c : Cache) (j k : Nat) :
    historyJob { cachedStateW with cache := c, jobs := j } k = e0W.value := by
  unfold historyJob scanHistory
  rw [show ({ cachedStateW with cache := c, jobs := j } : ChainState).historyStore
        = histW from rfl,
     show ({ cachedStateW with cache := c, jobs := j } : ChainState).maxSend
        = 970 from rfl]
  rfl

theorem run_churn (n : Nat) :
    run cachedStateW (churn n)
      = { cachedStateW with cache := churnCache n, jobs := n + 1 } := by
  induction n with
  | zero => rfl
  | succ n ih =>
    show run cachedStateW (churn n ++ [.get (n + 1), .fin (n + 1)]) = _
    unfold run
    rw [List.foldl_append]
    rw [show List.foldl step cachedStateW (churn n) = run cachedStateW (churn n) from rfl,
       ih]
    rw [show (List.foldl step
          { cachedStateW with cache := churnCache n, jobs := n + 1 }
          [.get (n + 1), .fin (n + 1)])
        = run { cachedStateW with cache := churnCache n, jobs := n + 1 }
            [.get (n + 1), .fin (n + 1)] from rfl]
    rw [churn_pair _ (n + 1) rfl (lruContains_churnCache_succ_false n)]
    show _ = { cachedStateW with
                cache := ((n + 1, e0W) :: churnCache n).take lruCapacity,
                jobs := n + 1 + 1 }
    rw [show lruCapacity = 255 + 1 from rfl, List.take_succ_cons]
    congr 1
    rw [historyJob_churn (churnCache n) (n + 1) (n + 1)]
    rfl

/-- C2 counterexample: key 0 is cached by a completed `get_history(0)` and
never invalidated, yet after 256 distinct other keys are queried the LRU
cache evicts key 0; the next `get_history(0)` then finds nothing cached,
returns no immediate value, and dispatches the scan job again. -/
theorem eviction_redispatches_job :
    lruContains (run stateW evictTrace).cache 0 = false
    ∧ (getHistoryBegin (run stateW evictTrace) 0).2 = none
    ∧ (getHistoryBegin (run stateW evictTrace) 0).1.jobs
        = (run stateW evictTrace).jobs + 1 := by
  have hrun : run stateW evictTrace
      = { cachedStateW with cache := churnCache 256, jobs := 257 } := by
    show run stateW ([.get 0, .fin 0] ++ churn 256) = _
    unfold run
    rw [List.foldl_append]
    rw [show List.foldl step stateW [.get 0, .fin 0] = cachedStateW from rfl]
    exact run_churn 256
  have hc : lruContains (churnCache 256) 0 = false := by decide
  have hmiss := getHistoryBegin_miss
      { cachedStateW with cache := churnCache 256, jobs := 257 } 0 hc
  rw [hrun]
  exact ⟨hc, hmiss.1, hmiss.2⟩

/-- C1 (code bug): in the race where the computation for key 0 began at
sequence 0 and an invalidation covering key 0 was delivered afterwards
(sequence 1), the code still installs and keeps the stale entry — the
final cache holds key 0 with `computed_at_sequence` 0, strictly below the
invalidation's sequence 1 — while the completed result is returned to the
caller. -/
theorem stale_entry_retained_after_invalidation :
    (lruFind (run stateW raceTrace).cache 0).map Entry.computedAt = some 0
    ∧ (run stateW raceTrace).seq = 1
    ∧ (getHistoryFinish (run stateW [.get 0, .notify [0]]) 0 0).2
        = historyJob stateW 0 :=
  ⟨by decide, by decide, by decide⟩

/-- C8 counterexample: after `shutdown` has completed, a `get_history`
query for the cached key 0 is still served normally from the cache and no
rejection of any kind occurs. -/
theorem query_served_after_shutdown :
    (run stateW shutdownTrace).bpStopped = true
    ∧ (getHistoryBegin (run stateW shutdownTrace) 0).2 = some e0W.value
    ∧ (getHistoryBegin (run stateW shutdownTrace) 0).1.jobs
        = (run stateW shutdownTrace).jobs :=
  ⟨by decide, by decide, by decide⟩

/-- C8 amended: `shutdown` only signals the block processor to flush and
stop; the facade keeps its cache and does not gate queries on the stopped
flag — `get_history` and `get_utxos` behave identically afterwards. -/
theorem shutdown_does_not_gate_queries (s : ChainState) (k : Key) :
    (shutdownOp s).cache = s.cache
    ∧ (getHistoryBegin (shutdownOp s) k).2 = (getHistoryBegin s k).2
    ∧ (getHistoryBegin (shutdownOp s) k).1.cache = (getHistoryBegin s k).1.cache
    ∧ (getHistoryBegin (shutdownOp s) k).1.jobs = (getHistoryBegin s k).1.jobs
    ∧ (getUtxosOp (shutdownOp s) k).2 = (getUtxosOp s k).2 := by
  unfold shutdownOp getHistoryBegin getUtxosOp
  by_cases h : lruContains s.cache k = true
  · rw [if_pos h, if_pos h]
    exact ⟨rfl, rfl, rfl, rfl, rfl⟩
  · rw [if_neg h, if_neg h]
    exact ⟨rfl, rfl, rfl, rfl, rfl⟩

theorem step_cache_length_le (s : ChainState) (e : Event)
    (h : s.cache.length ≤ lruCapacity) :
    (step s e).cache.length ≤ lruCapacity := by
  cases e with
  | get k =>
    show ((getHistoryBegin s k).1).cache.length ≤ lruCapacity
    unfold getHistoryBegin
    by_cases hc : lruContains s.cache k = true
    · rw [if_pos hc]
      exact le_trans (lruTouch_length_le s.cache k) h
    · rw [if_neg hc]
      exact h
  | fin k =>
    cases hf : s.pending.find? (fun q => q.1 == k) with
    | none =>
      have hs : step s (.fin k) = s := by
        show (match (List.find? (fun q => q.1 == k) s.pending : Option (Key × Nat)) with
              | some q => (getHistoryFinish s k q.2).1
              | none => s) = s
        rw [hf]
      rw [hs]
      exact h
    | some q =>
      have hs : step s (.fin k) = (getHistoryFinish s k q.2).1 := by
        show (match (List.find? (fun q => q.1 == k) s.pending : Option (Key × Nat)) with
              | some q => (getHistoryFinish s k q.2).1
              | none => s) = (getHistoryFinish s k q.2).1
        rw [hf]
      rw [hs]
      show (lruTouch (lruSet s.cache k ⟨historyJob s k, q.2⟩) k).length ≤ lruCapacity
      exact le_trans (lruTouch_length_le _ _) (lruSet_length_le _ _ _ h)
  | notify t =>
    show (notifyCache s.cache t).length ≤ lruCapacity
    rw [notifyCache_eq_filter]
    exact le_trans (s.cache.length_filter_le _) h
  | utxos k => exact h
  | shut => exact h

theorem run_cache_length_le (tr : List Event) (s : ChainState)
    (h : s.cache.length ≤ lruCapacity) :
    (run s tr).cache.length ≤ lruCapacity := by
  induction tr generalizing s with
  | nil => exact h
  | cons e tr ih => exact ih (step s e) (step_cache_length_le s e h)

/-- C3: from facade start, no sequence of operations ever pushes the cache
above its capacity of 256 entries; when a new key is installed into a full
cache the tail — the least-recently-used entry of the MRU-ordered cache —
is the one evicted; a cache hit moves the accessed key to the
most-recently-used position; and a fresh installation enters at the
most-recently-used position. -/
theorem cache_capacity_lru :
    (∀ (hist utxo : Key → Value) (ms : Nat) (tr : List Event),
        ((run (initState hist utxo ms) tr).cache).length ≤ lruCapacity)
    ∧ (∀ (c : Cache) (k : Key) (e : Entry), c.length = lruCapacity →
        lruContains c k = false →
        lruSet c k e = (k, e) :: c.take (lruCapacity - 1))
    ∧ (∀ (c : Cache) (k : Key), lruContains c k = true →
        (lruTouch c k).head?.map Prod.fst = some k)
    ∧ (∀ (c : Cache) (k : Key) (e : Entry), (lruSet c k e).head? = some (k, e)) := by
  refine ⟨?_, ?_, ?_, ?_⟩
  · intro hist utxo ms tr
    exact run_cache_length_le tr _ (by simp [initState])
  · intro c k e hlen hc
    unfold lruSet
    rw [if_neg (by simp [hc]), show lruCapacity = 255 + 1 from rfl,
       List.take_succ_cons]
  · intro c k hc
    unfold lruContains at hc
    cases hf : c.find? (fun p => p.1 == k) with
    | none =>
      rcases List.any_eq_true.mp hc with ⟨p, hp, hpk⟩
      have hnone := List.find?_eq_none.mp hf p hp
      exact absurd hpk (by simpa using hnone)
    | some p =>
      have ht : lruTouch c k = p :: lruDel c k := by
        unfold lruTouch
        rw [hf]
      have hpk := find?_key_beq hf
      simp only [beq_iff_eq] at hpk
      rw [ht]
      simp [hpk]
  · intro c k e
    unfold lruSet
    by_cases hc : lruContains c k = true
    · rw [if_pos hc]
      rfl
    · rw [if_neg hc, show lruCapacity = 255 + 1 from rfl, List.take_succ_cons]
      rfl

/-- Witness for C3's eviction and recency clauses: on a concrete full cache
of 256 keys, installing a fresh key keeps the first 255 entries and drops
the least-recently-used tail, and touching key 5 moves it to the front. -/
theorem cache_capacity_lru_witness :
    lruSet fullCache 999 ⟨[7], 3⟩ = (999, ⟨[7], 3⟩) :: fullCache.take 255
    ∧ (lruTouch fullCache 5).head?.map Prod.fst = some 5 :=
  ⟨cache_capacity_lru.2.1 fullCache 999 ⟨[7], 3⟩ (by decide) (by decide),
   cache_capacity_lru.2.2.1 fullCache 5 (by decide)⟩
